import Mathlib

/-!
Verification of the autoregressive text-generation core of this repository
(`build-llm/05training.py`): the sampling loop `generate`, the greedy loop
`generate_text_simple`, the top-k logit filter, the GPT-2 checkpoint loader
(`assign` / `load_weights_into_gpt`), and a causal-attention forward pass.

Modelling conventions:
* Token ids are `Nat`; logits are exact rationals `ℚ`.  The value `-inf`
  produced by the top-k filter is modelled by `⊥` in `WithBot ℚ`.
* `torch.softmax` applies `Real.exp` before normalising.  The generation
  claims use only two facts about `exp` (it is strictly monotone and strictly
  positive), so the embedding takes the exponential as an explicit parameter
  `E : ℚ → ℚ`; theorems assume `StrictMono E` / `0 < E x` where needed, and
  witnesses instantiate `E` with the concrete monotone positive `expLike`.
  On `-inf` (`⊥`) the extension `expW` returns `0`, matching `exp (-inf) = 0`.
* The global torch RNG consumed by `torch.multinomial` is modelled by an
  explicit stream `rand : Nat → ℚ` of uniform draws, one per generation step;
  `multinomial` is inverse-CDF sampling with that draw.
* A model is its forward function: input ids to a (positions × vocab) logits
  matrix.  `generate` / `generate_text_simple` are embedded at batch size 1
  (the shape produced by `text_to_token_ids`, which every call site uses);
  `generateB` embeds the batched semantics of the same loop, including the
  Python truthiness error raised by `if idx_next == eos_id` on a boolean
  tensor with more than one element.
-/

namespace LLM

/-- A (batch-1) model: maps the conditioned id sequence to a logits matrix,
one row of `vocab_size` scores per input position (`model(idx_cond)` in
`05training.py`). -/
def Model : Type := List Nat → List (List ℚ)

/-- `idx[:, -context_size:]` (line 355 / line 9): the most recent
`context_size` tokens.  Mirrors Python slice semantics: `l[-0:]` is the whole
list, and a slice longer than the list is the whole list. -/
def sliceLast (n : Nat) (l : List Nat) : List Nat :=
  if n = 0 then l else l.drop (l.length - n)

/-- `logits[:, -1, :]` (line 358 / line 13): the scores of the last position. -/
def lastRow (m : List (List ℚ)) : List ℚ := m.getLastD []

/-- Insert one element into a descending-sorted list (helper for the
descending sort performed by `torch.topk`). -/
def sortDescIns (x : ℚ) : List ℚ → List ℚ
  | [] => [x]
  | y :: ys => if y ≤ x then x :: y :: ys else y :: sortDescIns x ys

/-- Sort a list of scores in descending order, as `torch.topk` does before
taking the first `k` values. -/
def sortDesc : List ℚ → List ℚ
  | [] => []
  | x :: xs => sortDescIns x (sortDesc xs)

/-- `top_logits[:, -1]` (lines 360-361): the smallest of the `k` largest
scores, i.e. the last value `torch.topk` returns.  `none` only when `k = 0`
or the list is empty (where `torch.topk` itself errors). -/
def topkMinVal (xs : List ℚ) (k : Nat) : Option ℚ :=
  ((sortDesc xs).take k).getLast?

/-- Lines 359-366 (and the standalone demo at lines 338-351): the top-k
filter.  `torch.where(logits < min_val, -inf, logits)` keeps every score that
is not strictly below the k-th largest and replaces the rest by `-inf`. -/
def topkFilter (xs : List ℚ) (k : Nat) : List (WithBot ℚ) :=
  match topkMinVal xs k with
  | none => xs.map WithBot.some
  | some m => xs.map (fun x => if x < m then (⊥ : WithBot ℚ) else (x : WithBot ℚ))

/-- The exponential extended to `-inf`: `exp (-inf) = 0`. -/
def expW (E : ℚ → ℚ) : WithBot ℚ → ℚ
  | ⊥ => 0
  | (q : ℚ) => E q

/-- `torch.softmax` on a row that may contain `-inf` entries (line 369):
exponentiate (with `exp (-inf) = 0`) and normalise by the row sum. -/
def softmaxW (E : ℚ → ℚ) (xs : List (WithBot ℚ)) : List ℚ :=
  let ws := xs.map (expW E)
  ws.map (fun w => w / ws.sum)

/-- `torch.softmax` on a row of finite logits (line 14 of
`generate_text_simple`). -/
def softmaxQ (E : ℚ → ℚ) (xs : List ℚ) : List ℚ :=
  let ws := xs.map E
  ws.map (fun w => w / ws.sum)

/-- Inverse-CDF walk for `torch.multinomial`: subtract probabilities from the
uniform draw until it goes negative; the index where that happens is the
sample. -/
def multinomialAux : List ℚ → ℚ → Nat → Nat
  | [], _, i => i
  | p :: ps, u, i => if u < p then i else multinomialAux ps (u - p) (i + 1)

/-- `torch.multinomial(probs, num_samples=1)` (line 370) with an explicit
uniform draw `u`. -/
def multinomial (ps : List ℚ) (u : ℚ) : Nat := multinomialAux ps u 0

/-- Scan for `torch.argmax`: keep the index of the running maximum, replacing
it only on a strictly larger value, so the first maximum wins. -/
def argmaxLAux {α : Type} [LinearOrder α] : List α → α → Nat → Nat → Nat
  | [], _, best, _ => best
  | x :: xs, cur, best, i =>
    if cur < x then argmaxLAux xs x i (i + 1) else argmaxLAux xs cur best (i + 1)

/-- `torch.argmax(..., dim=-1)` (line 372 / line 15): index of the first
maximal value of the row (first-occurrence tie-breaking, as documented for
`torch.max`/`torch.argmax`). -/
def argmaxL {α : Type} [LinearOrder α] : List α → Nat
  | [] => 0
  | x :: xs => argmaxLAux xs x 0 1

/-- `logits / temperature` (line 368) on possibly `-inf` logits; for
`temperature > 0` this fixes `-inf` and rescales finite scores. -/
def scaleW (temp : ℚ) (xs : List (WithBot ℚ)) : List (WithBot ℚ) :=
  xs.map (WithBot.map (fun q => q / temp))

/-- The last-position logits `generate` works on: forward pass on the
truncated context, then the last row (lines 355-358). -/
def lastLogits (model : Model) (idx : List Nat) (ctx : Nat) : List ℚ :=
  lastRow (model (sliceLast ctx idx))

/-- The last-position logits after the optional top-k filter
(lines 359-366); `-inf` entries are `⊥`. -/
def filteredLogits (model : Model) (idx : List Nat) (ctx : Nat)
    (topk : Option Nat) : List (WithBot ℚ) :=
  match topk with
  | none => (lastLogits model idx ctx).map WithBot.some
  | some k => topkFilter (lastLogits model idx ctx) k

/-- One decoding decision on a filtered logit row (lines 367-372): sample
from the tempered softmax when `temperature > 0`, otherwise take the argmax. -/
def selectRow (E : ℚ → ℚ) (temp : ℚ) (u : ℚ) (row : List (WithBot ℚ)) : Nat :=
  if 0 < temp then multinomial (softmaxW E (scaleW temp row)) u
  else argmaxL row

/-- The token id `generate` selects in one loop iteration, given the current
context and this step's uniform draw. -/
def selectNext (E : ℚ → ℚ) (model : Model) (idx : List Nat) (ctx : Nat)
    (temp : ℚ) (topk : Option Nat) (u : ℚ) : Nat :=
  selectRow E temp u (filteredLogits model idx ctx topk)

/-- `idx_next == eos_id` (line 374) at batch size 1: comparing a one-element
tensor with `None` is `False`; with an id it is elementwise equality. -/
def eosHitB (next : Nat) (eos : Option Nat) : Bool :=
  match eos with
  | none => false
  | some e => next == e

/-- The loop body of `generate` (lines 354-376), with the remaining fuel and
the index of the current step (which addresses the RNG stream). -/
def generateGo (E : ℚ → ℚ) (model : Model) (ctx : Nat) (temp : ℚ)
    (topk : Option Nat) (eos : Option Nat) (rand : Nat → ℚ) :
    Nat → List Nat → Nat → List Nat
  | 0, idx, _ => idx
  | n + 1, idx, s =>
    let next := selectNext E model idx ctx temp topk (rand s)
    if eosHitB next eos then idx
    else generateGo E model ctx temp topk eos rand n (idx ++ [next]) (s + 1)

/-- `generate` (05training.py lines 353-377) at batch size 1: iterate up to
`max_new_tokens` decoding steps, stopping early when the selected id equals
`eos_id`, and return the grown context. -/
def generate (E : ℚ → ℚ) (model : Model) (idx : List Nat)
    (maxNewTokens ctx : Nat) (temp : ℚ) (topk : Option Nat)
    (eos : Option Nat) (rand : Nat → ℚ) : List Nat :=
  generateGo E model ctx temp topk eos rand maxNewTokens idx 0

/-- The token `generate` would select at step `s` from context `c`. -/
def nextTok (E : ℚ → ℚ) (model : Model) (ctx : Nat) (temp : ℚ)
    (topk : Option Nat) (rand : Nat → ℚ) (s : Nat) (c : List Nat) : Nat :=
  selectNext E model c ctx temp topk (rand s)

/-- The context `generate` holds after `k` completed (non-stopping) steps:
each step appends exactly the selected token. -/
def ctxAt (E : ℚ → ℚ) (model : Model) (ctx : Nat) (temp : ℚ)
    (topk : Option Nat) (rand : Nat → ℚ) (idx : List Nat) : Nat → List Nat
  | 0 => idx
  | k + 1 =>
    let c := ctxAt E model ctx temp topk rand idx k
    c ++ [nextTok E model ctx temp topk rand k c]

/-- `generate_text_simple` (05training.py lines 7-17): greedy decoding via
`argmax (softmax logits)`, no top-k, no temperature, no early stop. -/
def generate_text_simple (E : ℚ → ℚ) (model : Model) (idx : List Nat) :
    Nat → Nat → List Nat
  | 0, _ => idx
  | n + 1, ctx =>
    let next := argmaxL (softmaxQ E (lastLogits model idx ctx))
    generate_text_simple E model (idx ++ [next]) n ctx

/-! ### The batched semantics of `generate`

`generate` receives a `(B, L)` id tensor.  The loop body is computed per
batch row, but the early-stop test `if idx_next == eos_id:` calls Python
`bool()` on the whole `(B, 1)` comparison tensor, which raises a
`RuntimeError` whenever the tensor has more than one element. -/

/-- A batched model: one id row per batch element in, one logits matrix per
batch element out. -/
def BModel : Type := List (List Nat) → List (List (List ℚ))

/-- Python truthiness of `idx_next == eos_id` for a `(B, 1)` column of
selected ids: comparison with `None` is plain `False`; comparison with an id
gives a boolean tensor, and `bool()` of it is only defined for one element. -/
def tensorEqEos (next : List Nat) (eos : Option Nat) : Except String Bool :=
  match eos with
  | none => .ok false
  | some e =>
    match next with
    | [n] => .ok (n == e)
    | [] => .error "Boolean value of Tensor with no elements is ambiguous"
    | _ => .error "Boolean value of Tensor with more than one element is ambiguous"

/-- Lines 359-366 on a `(B, V)` logits tensor: `min_val` is the per-row k-th
largest score, of shape `(B,)`.  The comparison `logits < min_val` broadcasts
`(B, V)` against `(B,)`: legal when `B = 1` (each score against the single
row minimum) or, entry `(i, j)` against `min_val j`, when `V = B`; any other
shape pair raises. -/
def topkFilterB (logits : List (List ℚ)) (k : Nat) :
    Except String (List (List (WithBot ℚ))) :=
  let mv := logits.map (fun row => (topkMinVal row k).getD 0)
  if logits.length = 1 then
    .ok (logits.map (fun row =>
      row.map (fun x => if x < mv.getD 0 0 then (⊥ : WithBot ℚ) else (x : WithBot ℚ))))
  else if (logits.getD 0 []).length = logits.length then
    .ok ((List.range logits.length).map (fun i =>
      (List.range (logits.getD i []).length).map (fun j =>
        if (logits.getD i []).getD j 0 < mv.getD j 0 then (⊥ : WithBot ℚ)
        else ((logits.getD i []).getD j 0 : WithBot ℚ))))
  else .error "The size of tensor a must match the size of tensor b"

/-- One batched loop iteration of `generate` up to the selection of
`idx_next`: per-row context truncation, forward pass, last-position logits,
optional top-k filter, and per-row decoding decision (`us` draws one uniform
sample per row for `torch.multinomial`). -/
def selectNextB (E : ℚ → ℚ) (bmodel : BModel) (rows : List (List Nat))
    (ctx : Nat) (temp : ℚ) (topk : Option Nat) (us : Nat → ℚ) :
    Except String (List Nat) :=
  let logits := (bmodel (rows.map (sliceLast ctx))).map lastRow
  match topk with
  | none =>
    .ok ((List.range logits.length).map (fun i =>
      selectRow E temp (us i) ((logits.getD i []).map WithBot.some)))
  | some k =>
    match topkFilterB logits k with
    | .error e => .error e
    | .ok fl =>
      .ok ((List.range fl.length).map (fun i =>
        selectRow E temp (us i) (fl.getD i [])))

/-- The loop of `generate` (lines 354-376) on a `(B, L)` batch, propagating
the `RuntimeError` of the early-stop test as an `Except` error. -/
def generateGoB (E : ℚ → ℚ) (bmodel : BModel) (ctx : Nat) (temp : ℚ)
    (topk : Option Nat) (eos : Option Nat) (rand : Nat → Nat → ℚ) :
    Nat → List (List Nat) → Nat → Except String (List (List Nat))
  | 0, rows, _ => .ok rows
  | n + 1, rows, s =>
    match selectNextB E bmodel rows ctx temp topk (rand s) with
    | .error e => .error e
    | .ok next =>
      match tensorEqEos next eos with
      | .error e => .error e
      | .ok true => .ok rows
      | .ok false =>
        generateGoB E bmodel ctx temp topk eos rand n
          (List.zipWith (fun r t => r ++ [t]) rows next) (s + 1)

/-- `generate` (lines 353-377) on a batch of prompts. -/
def generateB (E : ℚ → ℚ) (bmodel : BModel) (rows : List (List Nat))
    (maxNewTokens ctx : Nat) (temp : ℚ) (topk : Option Nat)
    (eos : Option Nat) (rand : Nat → Nat → ℚ) :
    Except String (List (List Nat)) :=
  generateGoB E bmodel ctx temp topk eos rand maxNewTokens rows 0

/-! ### The GPT-2 checkpoint loader (05training.py lines 432-497)

Tensors carry their shape and flat data.  Python mutates `gpt` field by field
and lets the `ValueError` of `assign` propagate, so the loader is modelled as
returning the (possibly partially updated) parameter record together with an
optional error message. -/

/-- A numeric array with explicit shape (row-major flat data). -/
structure Tensor where
  shape : List Nat
  data : List ℚ
deriving DecidableEq

/-- `assign` (lines 432-437): strict shape equality, else a `ValueError`
naming both shapes; on success the right-hand tensor is taken verbatim
(`torch.nn.Parameter(torch.tensor(right))`), never reshaped or truncated. -/
def assign (left right : Tensor) : Except String Tensor :=
  if left.shape ≠ right.shape then
    .error ("Shape mismatch. Left: " ++ toString left.shape
      ++ ", Right: " ++ toString right.shape)
  else .ok right

/-- `.T` on a 2-D array (used for the transposed weight matrices). -/
def transpose2D (t : Tensor) : Tensor :=
  match t.shape with
  | [r, c] =>
    { shape := [c, r]
      data := (List.range c).flatMap (fun j =>
        (List.range r).map (fun i => t.data.getD (i * c + j) 0)) }
  | s => { shape := s.reverse, data := t.data }

/-- `np.split(arr, 3, axis=-1)` on a 2-D `(r, 3c)` array: three `(r, c)`
column blocks (`np.split` itself errors when the axis is not divisible by 3;
the loader only reaches it on well-formed GPT-2 checkpoints). -/
def split3Cols (t : Tensor) : Tensor × Tensor × Tensor :=
  match t.shape with
  | [r, c3] =>
    let c := c3 / 3
    let block := fun (b : Nat) =>
      { shape := [r, c]
        data := (List.range r).flatMap (fun i =>
          (List.range c).map (fun j => t.data.getD (i * c3 + b * c + j) 0)) : Tensor }
    (block 0, block 1, block 2)
  | _ => (t, t, t)

/-- `np.split(arr, 3, axis=-1)` on a 1-D `(3c,)` array (the fused
query/key/value bias). -/
def split3Flat (t : Tensor) : Tensor × Tensor × Tensor :=
  let c := (t.data.length) / 3
  let block := fun (b : Nat) =>
    { shape := [c], data := (t.data.drop (b * c)).take c : Tensor }
  (block 0, block 1, block 2)

/-- The parameters of one `TransformerBlock` of the `GPTModel`, in the order
`load_weights_into_gpt` assigns them. -/
structure BlockTensors where
  wQueryW : Tensor
  wKeyW : Tensor
  wValueW : Tensor
  wQueryB : Tensor
  wKeyB : Tensor
  wValueB : Tensor
  outProjW : Tensor
  outProjB : Tensor
  ff0W : Tensor
  ff0B : Tensor
  ff2W : Tensor
  ff2B : Tensor
  norm1Scale : Tensor
  norm1Shift : Tensor
  norm2Scale : Tensor
  norm2Shift : Tensor
deriving DecidableEq

/-- The assignable parameters of a `GPTModel`. -/
structure GPTTensors where
  posEmb : Tensor
  tokEmb : Tensor
  trfBlocks : List BlockTensors
  finalNormScale : Tensor
  finalNormShift : Tensor
  outHeadW : Tensor
deriving DecidableEq

/-- One block of the downloaded GPT-2 `params` dictionary. -/
structure CkptBlock where
  attnCAttnW : Tensor
  attnCAttnB : Tensor
  attnCProjW : Tensor
  attnCProjB : Tensor
  mlpCFcW : Tensor
  mlpCFcB : Tensor
  mlpCProjW : Tensor
  mlpCProjB : Tensor
  ln1G : Tensor
  ln1B : Tensor
  ln2G : Tensor
  ln2B : Tensor
deriving DecidableEq

/-- The downloaded GPT-2 `params` dictionary. -/
structure Ckpt where
  wpe : Tensor
  wte : Tensor
  blocks : List CkptBlock
  g : Tensor
  b : Tensor
deriving DecidableEq

/-- The per-block body of `load_weights_into_gpt` (lines 445-493): sixteen
`assign`s in source order, mutating the block field by field; the first
failure aborts, keeping the fields already written. -/
def loadBlock (blk : BlockTensors) (p : CkptBlock) :
    BlockTensors × Option String :=
  let (qw, kw, vw) := split3Cols p.attnCAttnW
  match assign blk.wQueryW (transpose2D qw) with
  | .error e => (blk, some e)
  | .ok t =>
  let blk := { blk with wQueryW := t }
  match assign blk.wKeyW (transpose2D kw) with
  | .error e => (blk, some e)
  | .ok t =>
  let blk := { blk with wKeyW := t }
  match assign blk.wValueW (transpose2D vw) with
  | .error e => (blk, some e)
  | .ok t =>
  let blk := { blk with wValueW := t }
  let (qb, kb, vb) := split3Flat p.attnCAttnB
  match assign blk.wQueryB qb with
  | .error e => (blk, some e)
  | .ok t =>
  let blk := { blk with wQueryB := t }
  match assign blk.wKeyB kb with
  | .error e => (blk, some e)
  | .ok t =>
  let blk := { blk with wKeyB := t }
  match assign blk.wValueB vb with
  | .error e => (blk, some e)
  | .ok t =>
  let blk := { blk with wValueB := t }
  match assign blk.outProjW (transpose2D p.attnCProjW) with
  | .error e => (blk, some e)
  | .ok t =>
  let blk := { blk with outProjW := t }
  match assign blk.outProjB p.attnCProjB with
  | .error e => (blk, some e)
  | .ok t =>
  let blk := { blk with outProjB := t }
  match assign blk.ff0W (transpose2D p.mlpCFcW) with
  | .error e => (blk, some e)
  | .ok t =>
  let blk := { blk with ff0W := t }
  match assign blk.ff0B p.mlpCFcB with
  | .error e => (blk, some e)
  | .ok t =>
  let blk := { blk with ff0B := t }
  match assign blk.ff2W (transpose2D p.mlpCProjW) with
  | .error e => (blk, some e)
  | .ok t =>
  let blk := { blk with ff2W := t }
  match assign blk.ff2B p.mlpCProjB with
  | .error e => (blk, some e)
  | .ok t =>
  let blk := { blk with ff2B := t }
  match assign blk.norm1Scale p.ln1G with
  | .error e => (blk, some e)
  | .ok t =>
  let blk := { blk with norm1Scale := t }
  match assign blk.norm1Shift p.ln1B with
  | .error e => (blk, some e)
  | .ok t =>
  let blk := { blk with norm1Shift := t }
  match assign blk.norm2Scale p.ln2G with
  | .error e => (blk, some e)
  | .ok t =>
  let blk := { blk with norm2Scale := t }
  match assign blk.norm2Shift p.ln2B with
  | .error e => (blk, some e)
  | .ok t => ({ blk with norm2Shift := t }, none)

/-- The `for b in range(len(params["blocks"]))` loop: process blocks in
order, stopping at the first failure; an index past the model's block list
is Python's `IndexError`. -/
def loadBlocks : List BlockTensors → List CkptBlock →
    List BlockTensors × Option String
  | gs, [] => (gs, none)
  | [], _ :: _ => ([], some "IndexError: list index out of range")
  | g :: gs, p :: ps =>
    match loadBlock g p with
    | (g', some e) => (g' :: gs, some e)
    | (g', none) =>
      let (gs', r) := loadBlocks gs ps
      (g' :: gs', r)

/-- `load_weights_into_gpt` (lines 441-497): the fixed assignment sequence,
threading the mutated parameter record and stopping at the first failed
`assign`.  The returned record keeps every assignment made before the
failure, exactly as the Python object does when the exception propagates. -/
def load_weights_into_gpt (gpt : GPTTensors) (params : Ckpt) :
    GPTTensors × Option String :=
  match assign gpt.posEmb params.wpe with
  | .error e => (gpt, some e)
  | .ok t =>
  let gpt := { gpt with posEmb := t }
  match assign gpt.tokEmb params.wte with
  | .error e => (gpt, some e)
  | .ok t =>
  let gpt := { gpt with tokEmb := t }
  match loadBlocks gpt.trfBlocks params.blocks with
  | (bs, some e) => ({ gpt with trfBlocks := bs }, some e)
  | (bs, none) =>
  let gpt := { gpt with trfBlocks := bs }
  match assign gpt.finalNormScale params.g with
  | .error e => (gpt, some e)
  | .ok t =>
  let gpt := { gpt with finalNormScale := t }
  match assign gpt.finalNormShift params.b with
  | .error e => (gpt, some e)
  | .ok t =>
  let gpt := { gpt with finalNormShift := t }
  match assign gpt.outHeadW params.wte with
  | .error e => (gpt, some e)
  | .ok t => ({ gpt with outHeadW := t }, none)

/-! ### The transformer forward pass

The `GPTModel` class lives in `llm.py`, which the repository's scripts import
but which is not part of the sources here; the following definitions are
modelled from the specification (sections 4.1-4.4).  The numerics that the
causality claim does not depend on are abstracted into explicit function
parameters: `E` for the exponential inside softmax, `S` for the reciprocal
square root inside layer normalisation, `phi` for the GELU-class feed-forward
activation, and `invSqrtHd` for the irrational attention scale
`1 / sqrt(head_dim)`. -/

/-- Modelled from the spec: dot product of two vectors (missing `llm.py`). -/
def dot (v w : List ℚ) : ℚ := (List.zipWith (· * ·) v w).sum

/-- Modelled from the spec: matrix-vector product; one output entry per
matrix row (missing `llm.py`). -/
def matVec (m : List (List ℚ)) (x : List ℚ) : List ℚ := m.map (fun row => dot row x)

/-- Modelled from the spec: elementwise vector sum, used for biases and for
the residual ("shortcut") connections (missing `llm.py`). -/
def addVec (v w : List ℚ) : List ℚ := List.zipWith (· + ·) v w

/-- Modelled from the spec: the `h`-th size-`hd` slice of a vector — the
reshape of the embedding dimension into per-head sub-spaces
(missing `llm.py`). -/
def chunkAt (hd h : Nat) (v : List ℚ) : List ℚ := (v.drop (h * hd)).take hd

/-- Modelled from the spec: sum of a list of vectors (missing `llm.py`). -/
def sumVecs : List (List ℚ) → List ℚ
  | [] => []
  | [v] => v
  | v :: vs => addVec v (sumVecs vs)

/-- Modelled from the spec: attention-weighted sum over the value vectors
(missing `llm.py`). -/
def weightedSum (ws : List ℚ) (vs : List (List ℚ)) : List ℚ :=
  sumVecs (List.zipWith (fun c v => v.map (fun a => c * a)) ws vs)

/-- Modelled from the spec (section 4.3): LayerNorm — zero mean, unit
variance with the biased/population variance and a stability epsilon, then a
learned elementwise scale and shift.  `S` abstracts the reciprocal square
root applied to `variance + eps` (missing `llm.py`). -/
def layerNorm (S : ℚ → ℚ) (eps : ℚ) (scale shift x : List ℚ) : List ℚ :=
  let n : ℚ := (x.length : ℚ)
  let mu := x.sum / n
  let varB := (x.map (fun a => (a - mu) ^ 2)).sum / n
  let inv := S (varB + eps)
  List.zipWith (· + ·) (List.zipWith (· * ·) scale (x.map (fun a => (a - mu) * inv))) shift

/-- Modelled from the spec (section 4.2): the weights of one causal
multi-head self-attention layer (missing `llm.py`). -/
structure AttnWeights where
  wQuery : List (List ℚ)
  bQuery : List ℚ
  wKey : List (List ℚ)
  bKey : List ℚ
  wValue : List (List ℚ)
  bValue : List ℚ
  wOut : List (List ℚ)
  bOut : List ℚ
  numHeads : Nat
  headDim : Nat
  invSqrtHd : ℚ

/-- Modelled from the spec (section 4.2): the query projection of one
position (missing `llm.py`). -/
def queryOf (w : AttnWeights) (x : List ℚ) : List ℚ :=
  addVec (matVec w.wQuery x) w.bQuery

/-- Modelled from the spec (section 4.2): the key projections of all
positions (missing `llm.py`). -/
def keysOf (w : AttnWeights) (xs : List (List ℚ)) : List (List ℚ) :=
  xs.map (fun x => addVec (matVec w.wKey x) w.bKey)

/-- Modelled from the spec (section 4.2): the value projections of all
positions (missing `llm.py`). -/
def valsOf (w : AttnWeights) (xs : List (List ℚ)) : List (List ℚ) :=
  xs.map (fun x => addVec (matVec w.wValue x) w.bValue)

/-- Modelled from the spec (section 4.2): the causally-masked attention
scores of query position `i` in head `h`: position `j` scores
`q·k / sqrt(head_dim)` when `j ≤ i` and `-inf` when `j > i` (the strict
no-look-ahead mask, applied before normalisation) (missing `llm.py`). -/
def maskedScores (w : AttnWeights) (q : List ℚ) (ks : List (List ℚ))
    (i h : Nat) : List (WithBot ℚ) :=
  let qh := chunkAt w.headDim h q
  let kh := ks.map (chunkAt w.headDim h)
  (List.range kh.length).map (fun j =>
    if j ≤ i then ((dot qh (kh.getD j []) * w.invSqrtHd : ℚ) : WithBot ℚ)
    else (⊥ : WithBot ℚ))

/-- Modelled from the spec (section 4.2): one head's output at query
position `i`: softmax the masked scores into attention weights and take the
weighted sum of this head's value slices (missing `llm.py`). -/
def headOut (E : ℚ → ℚ) (w : AttnWeights) (q : List ℚ)
    (ks vs : List (List ℚ)) (i h : Nat) : List ℚ :=
  weightedSum (softmaxW E (maskedScores w q ks i h))
    (vs.map (chunkAt w.headDim h))

/-- Modelled from the spec (section 4.2): the attention output at query
position `i` with query vector `xi`: project keys and values from the whole
input, compute each head's weighted value sum under the causal mask,
concatenate the heads, and apply the output projection (missing `llm.py`). -/
def attnRow (E : ℚ → ℚ) (w : AttnWeights) (xs : List (List ℚ)) (i : Nat)
    (xi : List ℚ) : List ℚ :=
  addVec (matVec w.wOut
    (((List.range w.numHeads).map
      (headOut E w (queryOf w xi) (keysOf w xs) (valsOf w xs) i)).flatten))
    w.bOut

/-- Modelled from the spec (section 4.2): causal multi-head self-attention
over a sequence of per-position vectors (missing `llm.py`). -/
def attention (E : ℚ → ℚ) (w : AttnWeights) (xs : List (List ℚ)) :
    List (List ℚ) :=
  (List.range xs.length).map (fun i => attnRow E w xs i (xs.getD i []))

/-- Modelled from the spec (section 4.3): the weights of one transformer
block (missing `llm.py`). -/
structure BlockWeights where
  att : AttnWeights
  norm1Scale : List ℚ
  norm1Shift : List ℚ
  norm2Scale : List ℚ
  norm2Shift : List ℚ
  ff0W : List (List ℚ)
  ff0B : List ℚ
  ff2W : List (List ℚ)
  ff2B : List ℚ

/-- Modelled from the spec (section 4.3): the position-wise feed-forward
sublayer — linear expansion, smooth nonlinearity `phi`, linear projection
back (missing `llm.py`). -/
def feedForward (phi : ℚ → ℚ) (b : BlockWeights) (x : List ℚ) : List ℚ :=
  addVec (matVec b.ff2W ((addVec (matVec b.ff0W x) b.ff0B).map phi)) b.ff2B

/-- Modelled from the spec (section 4.3): the first residual sublayer,
`x -> x + Attention(LayerNorm(x))` (missing `llm.py`). -/
def resAtt (E S : ℚ → ℚ) (eps : ℚ) (b : BlockWeights)
    (xs : List (List ℚ)) : List (List ℚ) :=
  List.zipWith addVec xs
    (attention E b.att (xs.map (layerNorm S eps b.norm1Scale b.norm1Shift)))

/-- Modelled from the spec (section 4.3): the second residual sublayer,
`y -> y + FeedForward(LayerNorm(y))` (missing `llm.py`). -/
def resFF (S phi : ℚ → ℚ) (eps : ℚ) (b : BlockWeights)
    (ys : List (List ℚ)) : List (List ℚ) :=
  List.zipWith addVec ys
    ((ys.map (layerNorm S eps b.norm2Scale b.norm2Shift)).map (feedForward phi b))

/-- Modelled from the spec (section 4.3): one transformer block,
`x -> x + Att(LN(x)) -> y -> y + FF(LN(y))` (missing `llm.py`). -/
def blockF (E S phi : ℚ → ℚ) (eps : ℚ) (b : BlockWeights)
    (xs : List (List ℚ)) : List (List ℚ) :=
  resFF S phi eps b (resAtt E S eps b xs)

/-- Modelled from the spec: the full parameter set of the GPT model
(missing `llm.py`). -/
structure GPTWeights where
  tokEmb : List (List ℚ)
  posEmb : List (List ℚ)
  blocks : List BlockWeights
  finalNormScale : List ℚ
  finalNormShift : List ℚ
  outW : List (List ℚ)

/-- Modelled from the spec (section 4.1): the embedding stage —
token-embedding lookup plus position-embedding lookup, elementwise summed
(missing `llm.py`). -/
def embed (w : GPTWeights) (ids : List Nat) : List (List ℚ) :=
  (List.range ids.length).map (fun p =>
    addVec (w.tokEmb.getD (ids.getD p 0) []) (w.posEmb.getD p []))

/-- Modelled from the spec (section 4.4): the forward pass — embedding,
stacked transformer blocks, terminal LayerNorm, linear output head producing
per-position vocabulary logits (missing `llm.py`). -/
def forward (E S phi : ℚ → ℚ) (eps : ℚ) (w : GPTWeights) (ids : List Nat) :
    List (List ℚ) :=
  let h := w.blocks.foldl (fun acc b => blockF E S phi eps b acc) (embed w ids)
  (h.map (layerNorm S eps w.finalNormScale w.finalNormShift)).map (matVec w.outW)

/-- A concrete strictly monotone, strictly positive rational function,
standing in for the exponential in witnesses. -/
def expLike (q : ℚ) : ℚ := if 0 ≤ q then q + 1 else 1 / (1 - q)

/-- The 9-token demo logits of 05training.py (lines 315-317). -/
def cLogits : List ℚ := [4.51, 0.89, -1.90, 6.75, 1.63, -1.62, -1.89, 6.28, 1.79]

/-- A constant model returning the demo logits at every position. -/
def cModel : Model := fun ids => ids.map (fun _ => cLogits)

/-- A model whose two logits tie, exercising the top-k boundary. -/
def tieModel : Model := fun ids => ids.map (fun _ => [(1 : ℚ), 1])

/-- A constant batched model: one copy of the demo logits per batch row. -/
def cBModel : BModel := fun rows => rows.map (fun _ => [cLogits])

/-- Concrete loader fixtures: a two-parameter-shaped model whose first
checkpoint entry matches and whose second does not. -/
def gpt0 : GPTTensors :=
  { posEmb := ⟨[2], [0, 0]⟩, tokEmb := ⟨[2], [0, 0]⟩, trfBlocks := []
    finalNormScale := ⟨[2], [1, 1]⟩, finalNormShift := ⟨[2], [0, 0]⟩
    outHeadW := ⟨[2], [0, 0]⟩ }

/-- A checkpoint whose `wpe` matches `gpt0` but whose `wte` has the wrong
shape. -/
def ckpt0 : Ckpt :=
  { wpe := ⟨[2], [5, 6]⟩, wte := ⟨[3], [7, 8, 9]⟩, blocks := []
    g := ⟨[2], [1, 1]⟩, b := ⟨[2], [0, 0]⟩ }

/-- A tiny concrete weight set for instantiating the forward pass. -/
def cWeights : GPTWeights :=
  { tokEmb := [[1], [2], [3]], posEmb := [[0], [0]], blocks := []
    finalNormScale := [1], finalNormShift := [0], outW := [[1]] }

/-! ## Lemmas about the generation loop -/

/-- With `temperature = 0` the decoding decision is the plain argmax of the
(filtered) logits: the sampling branch is not taken. -/
theorem selectRow_temp_zero (E : ℚ → ℚ) (u : ℚ) (row : List (WithBot ℚ)) :
    selectRow E 0 u row = argmaxL row := by
  simp [selectRow]

/-- The context after `k` steps has grown by exactly `k` tokens. -/
theorem ctxAt_length (E : ℚ → ℚ) (model : Model) (ctx : Nat) (temp : ℚ)
    (topk : Option Nat) (rand : Nat → ℚ) (idx : List Nat) :
    ∀ k, (ctxAt E model ctx temp topk rand idx k).length = idx.length + k := by
  intro k
  induction k with
  | zero => rfl
  | succ k ih => simp [ctxAt, ih]; omega

/-- The context after `k` steps is the prompt followed by the `k` selected
tokens. -/
theorem ctxAt_as_append (E : ℚ → ℚ) (model : Model) (ctx : Nat) (temp : ℚ)
    (topk : Option Nat) (rand : Nat → ℚ) (idx : List Nat) :
    ∀ k, ∃ g, ctxAt E model ctx temp topk rand idx k = idx ++ g ∧ g.length = k := by
  intro k
  induction k with
  | zero => exact ⟨[], by simp [ctxAt]⟩
  | succ k ih =>
    obtain ⟨g, hg, hlen⟩ := ih
    refine ⟨g ++ [nextTok E model ctx temp topk rand k
      (ctxAt E model ctx temp topk rand idx k)], ?_, by simp [hlen]⟩
    simp [ctxAt, hg]

/-- If no step before `k` selects the end-of-sequence id and step `k` does,
the loop started after `m` completed steps returns the context of step `k`
(the stopping id is never appended). -/
theorem generateGo_stop (E : ℚ → ℚ) (model : Model) (ctx : Nat) (temp : ℚ)
    (topk : Option Nat) (eos : Option Nat) (rand : Nat → ℚ) (idx : List Nat)
    (k : Nat) :
    ∀ n m, m ≤ k → k - m < n →
    (∀ j, m ≤ j → j < k →
      eosHitB (nextTok E model ctx temp topk rand j
        (ctxAt E model ctx temp topk rand idx j)) eos = false) →
    eosHitB (nextTok E model ctx temp topk rand k
      (ctxAt E model ctx temp topk rand idx k)) eos = true →
    generateGo E model ctx temp topk eos rand n
      (ctxAt E model ctx temp topk rand idx m) m
      = ctxAt E model ctx temp topk rand idx k := by
  intro n
  induction n with
  | zero => intro m _ h; omega
  | succ n ih =>
    intro m hmk hkn hrun hstop
    rcases Nat.eq_or_lt_of_le hmk with heq | hlt
    · subst heq
      simp only [generateGo]
      rw [show selectNext E model (ctxAt E model ctx temp topk rand idx m) ctx
          temp topk (rand m)
          = nextTok E model ctx temp topk rand m
            (ctxAt E model ctx temp topk rand idx m) from rfl, hstop]
      simp
    · have hm : eosHitB (nextTok E model ctx temp topk rand m
          (ctxAt E model ctx temp topk rand idx m)) eos = false :=
        hrun m le_rfl hlt
      simp only [generateGo]
      rw [show selectNext E model (ctxAt E model ctx temp topk rand idx m) ctx
          temp topk (rand m)
          = nextTok E model ctx temp topk rand m
            (ctxAt E model ctx temp topk rand idx m) from rfl, hm]
      simp only [Bool.false_eq_true, if_false]
      have hstep : ctxAt E model ctx temp topk rand idx m
          ++ [nextTok E model ctx temp topk rand m
            (ctxAt E model ctx temp topk rand idx m)]
          = ctxAt E model ctx temp topk rand idx (m + 1) := rfl
      rw [hstep]
      exact ih (m + 1) hlt (by omega) (fun j hj hjk => hrun j (by omega) hjk) hstop

/-- Started after `m` completed steps with `n` units of fuel, the loop lands
on the context of some step at most `n` further on. -/
theorem generateGo_reaches (E : ℚ → ℚ) (model : Model) (ctx : Nat) (temp : ℚ)
    (topk : Option Nat) (eos : Option Nat) (rand : Nat → ℚ) (idx : List Nat) :
    ∀ n m, ∃ k, k ≤ n ∧
      generateGo E model ctx temp topk eos rand n
        (ctxAt E model ctx temp topk rand idx m) m
        = ctxAt E model ctx temp topk rand idx (m + k) := by
  intro n
  induction n with
  | zero => intro m; exact ⟨0, le_rfl, rfl⟩
  | succ n ih =>
    intro m
    by_cases hhit : eosHitB (nextTok E model ctx temp topk rand m
        (ctxAt E model ctx temp topk rand idx m)) eos = true
    · refine ⟨0, by omega, ?_⟩
      simp only [generateGo]
      rw [show selectNext E model (ctxAt E model ctx temp topk rand idx m) ctx
          temp topk (rand m)
          = nextTok E model ctx temp topk rand m
            (ctxAt E model ctx temp topk rand idx m) from rfl, hhit]
      simp
    · obtain ⟨k, hk, hgo⟩ := ih (m + 1)
      refine ⟨k + 1, by omega, ?_⟩
      simp only [generateGo]
      rw [show selectNext E model (ctxAt E model ctx temp topk rand idx m) ctx
          temp topk (rand m)
          = nextTok E model ctx temp topk rand m
            (ctxAt E model ctx temp topk rand idx m) from rfl,
        Bool.eq_false_iff.mpr hhit]
      simp only [Bool.false_eq_true, if_false]
      have hstep : ctxAt E model ctx temp topk rand idx m
          ++ [nextTok E model ctx temp topk rand m
            (ctxAt E model ctx temp topk rand idx m)]
          = ctxAt E model ctx temp topk rand idx (m + 1) := rfl
      rw [hstep, hgo]
      congr 1
      omega

/-- With `temperature = 0` the loop ignores both the exponential and the
randomness stream. -/
theorem generateGo_temp_zero (E₁ E₂ : ℚ → ℚ) (model : Model) (ctx : Nat)
    (topk : Option Nat) (eos : Option Nat) (r₁ r₂ : Nat → ℚ) :
    ∀ n idx s₁ s₂,
      generateGo E₁ model ctx 0 topk eos r₁ n idx s₁
        = generateGo E₂ model ctx 0 topk eos r₂ n idx s₂ := by
  intro n
  induction n with
  | zero => intro idx s₁ s₂; rfl
  | succ n ih =>
    intro idx s₁ s₂
    simp only [generateGo, selectNext, selectRow_temp_zero]
    by_cases hhit : eosHitB (argmaxL (filteredLogits model idx ctx topk)) eos = true
    · rw [hhit]; simp
    · rw [Bool.eq_false_iff.mpr hhit]
      simp only [Bool.false_eq_true, if_false]
      exact ih _ _ _

/-! ## Claims about early stop, the context invariant, and greedy determinism -/

/-- C1: if the token id selected at (0-based) generation step `k` equals the
configured end-of-sequence id and no earlier step did, generation terminates
immediately before appending that id: `generate` returns the step-`k`
context, whose length is the prompt length plus `k` and not the prompt
length plus `max_new_tokens`. -/
theorem claim_C1_early_stop (E : ℚ → ℚ) (model : Model) (ctx : Nat) (temp : ℚ)
    (topk : Option Nat) (eos : Option Nat) (rand : Nat → ℚ) (idx : List Nat)
    (k maxNewTokens : Nat) (hk : k < maxNewTokens)
    (hrun : ∀ j, j < k →
      eosHitB (nextTok E model ctx temp topk rand j
        (ctxAt E model ctx temp topk rand idx j)) eos = false)
    (hstop : eosHitB (nextTok E model ctx temp topk rand k
      (ctxAt E model ctx temp topk rand idx k)) eos = true) :
    generate E model idx maxNewTokens ctx temp topk eos rand
      = ctxAt E model ctx temp topk rand idx k
    ∧ (generate E model idx maxNewTokens ctx temp topk eos rand).length
      = idx.length + k
    ∧ idx.length + k ≠ idx.length + maxNewTokens := by
  have hrub : generate E model idx maxNewTokens ctx temp topk eos rand
      = ctxAt E model ctx temp topk rand idx k := by
    have := generateGo_stop E model ctx temp topk eos rand idx k maxNewTokens 0
      (by omega) (by omega) (fun j _ hj => hrun j hj) hstop
    simpa [generate] using this
  refine ⟨hrub, ?_, by omega⟩
  rw [hrub, ctxAt_length]

/-- C1 witness: with the demo logits, greedy selection picks id 3; with
`eos_id = 3` the very first step stops, and the returned sequence is the
bare prompt. -/
theorem claim_C1_early_stop_witness :
    eosHitB (nextTok expLike cModel 9 0 none (fun _ => 0) 0
      (ctxAt expLike cModel 9 0 none (fun _ => 0) [0] 0)) (some 3) = true
    ∧ generate expLike cModel [0] 5 9 0 none (some 3) (fun _ => 0)
      = ctxAt expLike cModel 9 0 none (fun _ => 0) [0] 0 := by
  have hstop : eosHitB (nextTok expLike cModel 9 0 none (fun _ => 0) 0
      (ctxAt expLike cModel 9 0 none (fun _ => 0) [0] 0)) (some 3) = true := by
    norm_num [ctxAt, nextTok, selectNext, selectRow, filteredLogits, lastLogits,
      sliceLast, lastRow, cModel, cLogits, argmaxL, argmaxLAux, eosHitB]
  exact ⟨hstop, (claim_C1_early_stop expLike cModel 9 0 none (some 3)
    (fun _ => 0) [0] 0 5 (by omega) (fun j hj => absurd hj (by omega)) hstop).1⟩

/-- C5: every iteration appends exactly one token to the context (so the old
context is a prefix of the new one), the value `generate` returns is the
context of some step `k ≤ max_new_tokens`, and that context is the original
prompt followed by all generated ids in order — the left-edge truncation to
`context_size` tokens only feeds the forward pass and never removes tokens
from the returned sequence. -/
theorem claim_C5_context_invariant (E : ℚ → ℚ) (model : Model) (ctx : Nat)
    (temp : ℚ) (topk : Option Nat) (eos : Option Nat) (rand : Nat → ℚ)
    (idx : List Nat) (maxNewTokens : Nat) :
    (∀ k, (ctxAt E model ctx temp topk rand idx (k + 1)).length
        = (ctxAt E model ctx temp topk rand idx k).length + 1
      ∧ ∃ t, ctxAt E model ctx temp topk rand idx (k + 1)
        = ctxAt E model ctx temp topk rand idx k ++ [t])
    ∧ (∃ k, k ≤ maxNewTokens
        ∧ generate E model idx maxNewTokens ctx temp topk eos rand
          = ctxAt E model ctx temp topk rand idx k)
    ∧ (∃ gen, generate E model idx maxNewTokens ctx temp topk eos rand
        = idx ++ gen ∧ gen.length ≤ maxNewTokens) := by
  obtain ⟨k, hk, hgo⟩ :=
    generateGo_reaches E model ctx temp topk eos rand idx maxNewTokens 0
  have hgen : generate E model idx maxNewTokens ctx temp topk eos rand
      = ctxAt E model ctx temp topk rand idx k := by
    simpa [generate] using hgo
  refine ⟨fun k => ⟨by simp [ctxAt], ⟨_, rfl⟩⟩, ⟨k, hk, hgen⟩, ?_⟩
  obtain ⟨g, hg, hlen⟩ := ctxAt_as_append E model ctx temp topk rand idx k
  exact ⟨g, by rw [hgen, hg], by omega⟩

/-- C8: greedy generation (`temperature = 0`) is deterministic — the result
does not depend on the randomness stream (none is consumed on the greedy
path), nor on the exponential inside softmax (softmax is never taken). -/
theorem claim_C8_greedy_deterministic (E₁ E₂ : ℚ → ℚ) (model : Model)
    (idx : List Nat) (maxNewTokens ctx : Nat) (topk eos : Option Nat)
    (r₁ r₂ : Nat → ℚ) :
    generate E₁ model idx maxNewTokens ctx 0 topk eos r₁
      = generate E₂ model idx maxNewTokens ctx 0 topk eos r₂ :=
  generateGo_temp_zero E₁ E₂ model ctx topk eos r₁ r₂ maxNewTokens idx 0 0

/-! ## Argmax: first-occurrence semantics and invariance under monotone maps -/

/-- The argmax scan commutes with any strictly order-reflecting map. -/
theorem argmaxLAux_map {α β : Type} [LinearOrder α] [LinearOrder β]
    (f : α → β) (hf : ∀ a b : α, a < b ↔ f a < f b) :
    ∀ (xs : List α) (cur : α) (best i : Nat),
      argmaxLAux (xs.map f) (f cur) best i = argmaxLAux xs cur best i := by
  intro xs
  induction xs with
  | nil => intro cur best i; rfl
  | cons x xs ih =>
    intro cur best i
    simp only [List.map_cons, argmaxLAux]
    by_cases hc : cur < x
    · rw [if_pos ((hf cur x).mp hc), if_pos hc, ih]
    · rw [if_neg (fun h => hc ((hf cur x).mpr h)), if_neg hc, ih]

/-- `argmaxL` is unchanged by a strictly order-reflecting map of the
scores. -/
theorem argmaxL_map {α β : Type} [LinearOrder α] [LinearOrder β]
    (f : α → β) (hf : ∀ a b : α, a < b ↔ f a < f b) (xs : List α) :
    argmaxL (xs.map f) = argmaxL xs := by
  cases xs with
  | nil => rfl
  | cons x xs => simp only [List.map_cons, argmaxL]; exact argmaxLAux_map f hf xs x 0 1

/-- Invariant of the argmax scan: it either keeps the incumbent (when
nothing beats the running maximum strictly) or returns the position of the
first strict improvement that is maximal among the rest. -/
theorem argmaxLAux_spec {α : Type} [LinearOrder α] (d : α) :
    ∀ (xs : List α) (cur : α) (best i : Nat),
      (argmaxLAux xs cur best i = best ∧ ∀ t, t < xs.length → xs.getD t d ≤ cur)
      ∨ (∃ t, t < xs.length ∧ argmaxLAux xs cur best i = i + t
          ∧ cur < xs.getD t d
          ∧ (∀ s, s < xs.length → xs.getD s d ≤ xs.getD t d)
          ∧ (∀ s, s < t → xs.getD s d < xs.getD t d)) := by
  intro xs
  induction xs with
  | nil => intro cur best i; left; exact ⟨rfl, fun t ht => absurd ht (by simp)⟩
  | cons x xs ih =>
    intro cur best i
    simp only [argmaxLAux]
    by_cases hc : cur < x
    · rw [if_pos hc]
      rcases ih x i (i + 1) with ⟨h1, h2⟩ | ⟨t, ht, heq, hcur, hmax, hstr⟩
      · right
        refine ⟨0, by simp, by simpa using h1, by simpa using hc, ?_, ?_⟩
        · intro s hs
          cases s with
          | zero => simp
          | succ s => simpa using h2 s (by simpa using hs)
        · intro s hs; omega
      · right
        refine ⟨t + 1, by simpa using ht, by omega, ?_, ?_, ?_⟩
        · simpa using hc.trans hcur
        · intro s hs
          cases s with
          | zero => simpa using hcur.le
          | succ s => simpa using hmax s (by simpa using hs)
        · intro s hs
          cases s with
          | zero => simpa using hcur
          | succ s => simpa using hstr s (by omega)
    · rw [if_neg hc]
      push_neg at hc
      rcases ih cur best (i + 1) with ⟨h1, h2⟩ | ⟨t, ht, heq, hcur, hmax, hstr⟩
      · left
        refine ⟨h1, fun t ht => ?_⟩
        cases t with
        | zero => simpa using hc
        | succ t => simpa using h2 t (by simpa using ht)
      · right
        refine ⟨t + 1, by simpa using ht, by omega, ?_, ?_, ?_⟩
        · simpa using hcur
        · intro s hs
          cases s with
          | zero => simpa using hc.trans hcur.le
          | succ s => simpa using hmax s (by simpa using hs)
        · intro s hs
          cases s with
          | zero => simpa using lt_of_le_of_lt hc hcur
          | succ s => simpa using hstr s (by omega)

/-- `argmaxL` on a nonempty list returns a valid index whose value is
maximal, and every strictly earlier value is strictly smaller: first-max
semantics, ties broken by the lowest index. -/
theorem argmaxL_spec {α : Type} [LinearOrder α] (d : α) (xs : List α)
    (h : xs ≠ []) :
    argmaxL xs < xs.length
    ∧ (∀ j, j < xs.length → xs.getD j d ≤ xs.getD (argmaxL xs) d)
    ∧ (∀ j, j < argmaxL xs → xs.getD j d < xs.getD (argmaxL xs) d) := by
  cases xs with
  | nil => exact absurd rfl h
  | cons x xs =>
    simp only [argmaxL]
    rcases argmaxLAux_spec d xs x 0 1 with ⟨h1, h2⟩ | ⟨t, ht, heq, hcur, hmax, hstr⟩
    · rw [h1]
      refine ⟨by simp, ?_, fun j hj => absurd hj (by omega)⟩
      intro j hj
      cases j with
      | zero => simp
      | succ j => simpa using h2 j (by simpa using hj)
    · rw [heq, show 1 + t = t + 1 by omega]
      refine ⟨by simpa using ht, ?_, ?_⟩
      · intro j hj
        cases j with
        | zero => simpa using hcur.le
        | succ j => simpa using hmax j (by simpa using hj)
      · intro j hj
        cases j with
        | zero => simpa using hcur
        | succ j => simpa using hstr j (by omega)

/-- `expLike` is strictly positive, like the exponential. -/
theorem expLike_pos (q : ℚ) : 0 < expLike q := by
  unfold expLike
  by_cases h : 0 ≤ q
  · rw [if_pos h]; linarith
  · rw [if_neg h]
    push_neg at h
    exact div_pos one_pos (by linarith)

/-- `expLike` is strictly monotone, like the exponential. -/
theorem expLike_strictMono : StrictMono expLike := by
  intro a b hab
  unfold expLike
  by_cases ha : 0 ≤ a
  · rw [if_pos ha, if_pos (le_trans ha hab.le)]
    linarith
  · push_neg at ha
    rw [if_neg ha.not_le]
    by_cases hb : 0 ≤ b
    · rw [if_pos hb]
      have h1 : 1 / (1 - a) < 1 := by
        rw [div_lt_one (by linarith)]; linarith
      linarith
    · push_neg at hb
      rw [if_neg hb.not_le]
      rw [div_lt_div_iff₀ (by linarith) (by linarith)]
      linarith

/-- C3: with `temperature = 0`, `generate` selects the index of the first
maximal (filtered) last-position logit — the maximum, ties broken by the
lowest token id — and on the demo logits
`[4.51, 0.89, -1.90, 6.75, 1.63, -1.62, -1.89, 6.28, 1.79]` it selects
token index 3. -/
theorem claim_C3_greedy_argmax (E : ℚ → ℚ) (model : Model) (idx : List Nat)
    (ctx : Nat) (topk : Option Nat) (u : ℚ)
    (hne : filteredLogits model idx ctx topk ≠ []) :
    (selectNext E model idx ctx 0 topk u
        < (filteredLogits model idx ctx topk).length
      ∧ (∀ j, j < (filteredLogits model idx ctx topk).length →
          (filteredLogits model idx ctx topk).getD j ⊥
            ≤ (filteredLogits model idx ctx topk).getD
              (selectNext E model idx ctx 0 topk u) ⊥)
      ∧ (∀ j, j < selectNext E model idx ctx 0 topk u →
          (filteredLogits model idx ctx topk).getD j ⊥
            < (filteredLogits model idx ctx topk).getD
              (selectNext E model idx ctx 0 topk u) ⊥))
    ∧ selectNext E cModel [0] 9 0 none u = 3 := by
  constructor
  · rw [show selectNext E model idx ctx 0 topk u
        = argmaxL (filteredLogits model idx ctx topk) from selectRow_temp_zero ..]
    exact argmaxL_spec ⊥ (filteredLogits model idx ctx topk) hne
  · rw [show selectNext E cModel [0] 9 0 none u
        = argmaxL (filteredLogits cModel [0] 9 none) from selectRow_temp_zero ..]
    norm_num [filteredLogits, lastLogits, sliceLast, lastRow, cModel, cLogits,
      argmaxL, argmaxLAux]

/-- C3 witness: the demo model has nonempty filtered logits, and greedy
selection on it returns token index 3. -/
theorem claim_C3_greedy_argmax_witness :
    filteredLogits cModel [0] 9 none ≠ []
    ∧ selectNext expLike cModel [0] 9 0 none 0 = 3 := by
  have hne : filteredLogits cModel [0] 9 none ≠ [] := by
    simp [filteredLogits, lastLogits, sliceLast, lastRow, cModel, cLogits]
  exact ⟨hne, (claim_C3_greedy_argmax expLike cModel [0] 9 none 0 hne).2⟩

/-! ## Greedy simple generation refines `generate` -/

/-- Softmax over finite logits is the pointwise map `x ↦ E x / sum`. -/
theorem softmaxQ_eq_map (E : ℚ → ℚ) (xs : List ℚ) :
    softmaxQ E xs = xs.map (fun x => E x / (xs.map E).sum) := by
  simp [softmaxQ, List.map_map, Function.comp_def]

/-- Taking the softmax of a row of finite logits does not change the argmax:
softmax is strictly monotone per row (for the strictly monotone, strictly
positive exponential). -/
theorem argmaxL_softmaxQ (E : ℚ → ℚ) (hE : StrictMono E)
    (hpos : ∀ x, 0 < E x) (xs : List ℚ) :
    argmaxL (softmaxQ E xs) = argmaxL xs := by
  cases hxs : xs with
  | nil => simp [softmaxQ, argmaxL]
  | cons y ys =>
    rw [← hxs, softmaxQ_eq_map]
    have hD : 0 < (xs.map E).sum :=
      List.sum_pos _ (by
        intro a ha
        obtain ⟨x, _, rfl⟩ := List.mem_map.mp ha
        exact hpos x) (by simp [hxs])
    exact argmaxL_map _
      (fun a b => ((div_lt_div_iff_of_pos_right hD).trans hE.lt_iff_lt).symm) xs

/-- Viewing finite logits in `WithBot ℚ` does not change the argmax. -/
theorem argmaxL_coe (xs : List ℚ) :
    argmaxL (xs.map WithBot.some) = argmaxL xs :=
  argmaxL_map _ (fun _ _ => (WithBot.coe_lt_coe).symm) xs

/-- The two greedy loops take identical steps. -/
theorem generate_text_simple_eq_go (E : ℚ → ℚ) (hE : StrictMono E)
    (hpos : ∀ x, 0 < E x) (model : Model) (ctx : Nat) (rand : Nat → ℚ) :
    ∀ (n : Nat) (idx : List Nat) (s : Nat),
      generate_text_simple E model idx n ctx
        = generateGo E model ctx 0 none none rand n idx s := by
  intro n
  induction n with
  | zero => intro idx s; rfl
  | succ n ih =>
    intro idx s
    simp only [generate_text_simple, generateGo, selectNext, selectRow_temp_zero,
      eosHitB, Bool.false_eq_true, if_false]
    have h1 : filteredLogits model idx ctx none
        = (lastLogits model idx ctx).map WithBot.some := rfl
    rw [h1, argmaxL_coe, argmaxL_softmaxQ E hE hpos]
    exact ih _ _

/-- C9: `generate_text_simple` returns the same sequence as `generate` with
`top_k = None`, `temperature = 0`, `eos_id = None`: the argmax of the softmax
of the last-position logits equals the argmax of the raw logits, because
softmax is strictly monotone per row. -/
theorem claim_C9_simple_refines_generate (E : ℚ → ℚ) (hE : StrictMono E)
    (hpos : ∀ x, 0 < E x) (model : Model) (idx : List Nat)
    (maxNewTokens ctx : Nat) (rand : Nat → ℚ) :
    generate_text_simple E model idx maxNewTokens ctx
      = generate E model idx maxNewTokens ctx 0 none none rand :=
  generate_text_simple_eq_go E hE hpos model ctx rand maxNewTokens idx 0

/-- C9 witness: the refinement instantiated at the demo model with the
concrete monotone positive exponential stand-in. -/
theorem claim_C9_simple_refines_generate_witness :
    generate_text_simple expLike cModel [0] 2 9
      = generate expLike cModel [0] 2 9 0 none none (fun _ => 0) :=
  claim_C9_simple_refines_generate expLike expLike_strictMono expLike_pos
    cModel [0] 2 9 (fun _ => 0)

/-! ## The sampling path: tempered softmax is a probability distribution -/

/-- A list with nonnegative entries and at least one positive entry has a
positive sum. -/
theorem sum_pos_of_exists_pos (l : List ℚ) (h0 : ∀ x ∈ l, 0 ≤ x)
    (hex : ∃ x ∈ l, 0 < x) : 0 < l.sum := by
  induction l with
  | nil => simp at hex
  | cons y ys ih =>
    obtain ⟨x, hx, hxpos⟩ := hex
    rcases List.mem_cons.mp hx with rfl | hx
    · have : 0 ≤ ys.sum := List.sum_nonneg (fun a ha => h0 a (List.mem_cons_of_mem _ ha))
      simp only [List.sum_cons]
      linarith
    · have : 0 < ys.sum := ih (fun a ha => h0 a (List.mem_cons_of_mem _ ha)) ⟨x, hx, hxpos⟩
      have h0y : 0 ≤ y := h0 y (List.mem_cons_self y ys)
      simp only [List.sum_cons]
      linarith

/-- Dividing every entry by a constant divides the sum. -/
theorem sum_map_div (l : List ℚ) (D : ℚ) :
    (l.map (fun w => w / D)).sum = l.sum / D := by
  induction l with
  | nil => simp
  | cons y ys ih => simp [ih, add_div]

/-- `expW` is nonnegative when the exponential is positive. -/
theorem expW_nonneg (E : ℚ → ℚ) (hE : ∀ x, 0 < E x) (y : WithBot ℚ) :
    0 ≤ expW E y := by
  cases y with
  | bot => simp [expW]
  | coe q => exact (hE q).le

/-- Softmax over a row with at least one finite entry sums to 1 (given a
positive exponential). -/
theorem softmaxW_sum_one (E : ℚ → ℚ) (hE : ∀ x, 0 < E x)
    (ys : List (WithBot ℚ)) (hfin : ∃ y ∈ ys, y ≠ ⊥) :
    (softmaxW E ys).sum = 1 := by
  have hD : 0 < (ys.map (expW E)).sum := by
    apply sum_pos_of_exists_pos
    · intro w hw
      obtain ⟨y, _, rfl⟩ := List.mem_map.mp hw
      exact expW_nonneg E hE y
    · obtain ⟨y, hy, hne⟩ := hfin
      cases y with
      | bot => exact absurd rfl hne
      | coe q => exact ⟨E q, List.mem_map_of_mem _ hy, hE q⟩
  simp only [softmaxW]
  rw [sum_map_div, div_self (ne_of_gt hD)]

/-- Every softmax output entry is nonnegative (given a positive
exponential). -/
theorem softmaxW_nonneg (E : ℚ → ℚ) (hE : ∀ x, 0 < E x)
    (ys : List (WithBot ℚ)) : ∀ p ∈ softmaxW E ys, 0 ≤ p := by
  intro p hp
  simp only [softmaxW] at hp
  obtain ⟨w, hw, rfl⟩ := List.mem_map.mp hp
  obtain ⟨y, _, rfl⟩ := List.mem_map.mp hw
  apply div_nonneg (expW_nonneg E hE y)
  exact List.sum_nonneg (fun a ha => by
    obtain ⟨z, _, rfl⟩ := List.mem_map.mp ha
    exact expW_nonneg E hE z)

/-- C7: when `temperature > 0`, `generate` divides the (possibly
top-k-filtered) last-position logits by the temperature, softmaxes them into
a probability distribution (entries nonnegative, total mass 1), and draws
exactly one token id from it by inverse-CDF weighted sampling with the
step's uniform draw. -/
theorem claim_C7_temperature_sampling (E : ℚ → ℚ) (model : Model)
    (idx : List Nat) (ctx : Nat) (temp : ℚ) (topk : Option Nat) (u : ℚ)
    (htemp : 0 < temp) (hE : ∀ x, 0 < E x)
    (hfin : ∃ y ∈ filteredLogits model idx ctx topk, y ≠ ⊥) :
    selectNext E model idx ctx temp topk u
      = multinomial
          (softmaxW E (scaleW temp (filteredLogits model idx ctx topk))) u
    ∧ (softmaxW E (scaleW temp (filteredLogits model idx ctx topk))).sum = 1
    ∧ ∀ p ∈ softmaxW E (scaleW temp (filteredLogits model idx ctx topk)),
        0 ≤ p := by
  refine ⟨?_, ?_, softmaxW_nonneg E hE _⟩
  · simp [selectNext, selectRow, htemp]
  · apply softmaxW_sum_one E hE
    obtain ⟨y, hy, hne⟩ := hfin
    cases y with
    | bot => exact absurd rfl hne
    | coe q =>
      exact ⟨(q / temp : ℚ), List.mem_map_of_mem _ hy, by simp [WithBot.map_coe]⟩

/-- C7 witness: the demo model at temperature 1 with the concrete positive
exponential stand-in. -/
theorem claim_C7_temperature_sampling_witness :
    (∃ y ∈ filteredLogits cModel [0] 9 none, y ≠ ⊥)
    ∧ selectNext expLike cModel [0] 9 1 none 0
      = multinomial (softmaxW expLike (scaleW 1 (filteredLogits cModel [0] 9 none))) 0 := by
  have hfin : ∃ y ∈ filteredLogits cModel [0] 9 none, y ≠ ⊥ := by
    simp [filteredLogits, lastLogits, sliceLast, lastRow, cModel, cLogits]
  exact ⟨hfin, (claim_C7_temperature_sampling expLike cModel [0] 9 1 none 0
    one_pos expLike_pos hfin).1⟩

/-! ## The top-k filter -/

/-- Inserting into a descending-sorted list permutes consing. -/
theorem sortDescIns_perm (x : ℚ) (l : List ℚ) :
    (sortDescIns x l).Perm (x :: l) := by
  induction l with
  | nil => exact List.Perm.refl _
  | cons y ys ih =>
    simp only [sortDescIns]
    by_cases h : y ≤ x
    · rw [if_pos h]
    · rw [if_neg h]
      exact (ih.cons y).trans (List.Perm.swap x y ys)

/-- `sortDesc` permutes its input. -/
theorem sortDesc_perm (l : List ℚ) : (sortDesc l).Perm l := by
  induction l with
  | nil => exact List.Perm.refl _
  | cons x xs ih => exact (sortDescIns_perm x (sortDesc xs)).trans (ih.cons x)

/-- Inserting into a descending-sorted list keeps it sorted. -/
theorem sortDescIns_sorted (x : ℚ) (l : List ℚ)
    (h : l.Pairwise (fun a b => b ≤ a)) :
    (sortDescIns x l).Pairwise (fun a b => b ≤ a) := by
  induction l with
  | nil => simp [sortDescIns]
  | cons y ys ih =>
    simp only [sortDescIns]
    rcases List.pairwise_cons.mp h with ⟨hy, hys⟩
    by_cases hxy : y ≤ x
    · rw [if_pos hxy]
      refine List.pairwise_cons.mpr ⟨?_, h⟩
      intro b hb
      rcases List.mem_cons.mp hb with rfl | hb
      · exact hxy
      · exact (hy b hb).trans hxy
    · rw [if_neg hxy]
      push_neg at hxy
      refine List.pairwise_cons.mpr ⟨?_, ih hys⟩
      intro b hb
      rcases List.mem_cons.mp ((sortDescIns_perm x ys).mem_iff.mp hb) with rfl | hb
      · exact hxy.le
      · exact hy b hb

/-- `sortDesc` sorts in descending order. -/
theorem sortDesc_sorted (l : List ℚ) :
    (sortDesc l).Pairwise (fun a b => b ≤ a) := by
  induction l with
  | nil => simp [sortDesc]
  | cons x xs ih => exact sortDescIns_sorted x (sortDesc xs) ih

/-- In a descending-sorted list, the last element is a lower bound. -/
theorem sorted_getLast_le (l : List ℚ) (h : l.Pairwise (fun a b => b ≤ a))
    (m : ℚ) (hm : l.getLast? = some m) : ∀ a ∈ l, m ≤ a := by
  induction l with
  | nil => simp at hm
  | cons x xs ih =>
    rcases List.pairwise_cons.mp h with ⟨hx, hxs⟩
    cases xs with
    | nil =>
      simp only [List.getLast?_singleton, Option.some.injEq] at hm
      intro a ha
      rcases List.mem_cons.mp ha with rfl | ha
      · exact hm.symm.le
      · simp at ha
    | cons y ys =>
      rw [List.getLast?_cons_cons] at hm
      intro a ha
      rcases List.mem_cons.mp ha with rfl | ha
      · exact (hx m (List.mem_of_getLast?_eq_some hm))
      · exact ih hxs hm a ha

/-- The k-th largest score exists whenever `1 ≤ k ≤ |xs|`. -/
theorem topkMinVal_some (xs : List ℚ) (k : Nat) (hk : 1 ≤ k)
    (hlen : k ≤ xs.length) : ∃ m, topkMinVal xs k = some m := by
  have hlen' : (sortDesc xs).length = xs.length := (sortDesc_perm xs).length_eq
  have hne : ((sortDesc xs).take k) ≠ [] := by
    intro hcon
    have h2 : ((sortDesc xs).take k).length = 0 := by rw [hcon]; rfl
    rw [List.length_take, hlen'] at h2
    omega
  obtain ⟨m, hm⟩ := Option.isSome_iff_exists.mp (List.getLast?_isSome.mpr hne)
  exact ⟨m, hm⟩

/-- At least `k` scores survive the filter: the `k` largest are all at least
the k-th largest, hence not replaced by `-inf` (boundary ties can make the
count exceed `k`). -/
theorem topkFilter_count (xs : List ℚ) (k : Nat) (m : ℚ)
    (hm : topkMinVal xs k = some m) (hlen : k ≤ xs.length) :
    k ≤ (topkFilter xs k).countP (fun e => decide (e ≠ ⊥)) := by
  have hfil : topkFilter xs k
      = xs.map (fun x => if x < m then (⊥ : WithBot ℚ) else (x : WithBot ℚ)) := by
    simp [topkFilter, hm]
  rw [hfil, List.countP_map]
  have hcong : List.countP
      ((fun e => decide (e ≠ ⊥)) ∘ (fun x => if x < m then (⊥ : WithBot ℚ) else (x : WithBot ℚ))) xs
      = List.countP (fun x => decide (m ≤ x)) xs := by
    apply List.countP_congr
    intro x _
    by_cases hx : x < m
    · simp [hx, not_le.mpr hx]
    · simp [hx, not_lt.mp hx]
  rw [hcong]
  have hperm : List.countP (fun x => decide (m ≤ x)) xs
      = List.countP (fun x => decide (m ≤ x)) (sortDesc xs) :=
    ((sortDesc_perm xs).countP_eq _).symm
  rw [hperm]
  have hsub : List.countP (fun x => decide (m ≤ x)) ((sortDesc xs).take k)
      ≤ List.countP (fun x => decide (m ≤ x)) (sortDesc xs) :=
    (List.take_sublist k _).countP_le _
  have htake : List.countP (fun x => decide (m ≤ x)) ((sortDesc xs).take k)
      = ((sortDesc xs).take k).length := by
    rw [List.countP_eq_length]
    intro a ha
    have hsorted : ((sortDesc xs).take k).Pairwise (fun a b => b ≤ a) :=
      List.Pairwise.sublist (List.take_sublist k _) (sortDesc_sorted xs)
    exact decide_eq_true (sorted_getLast_le _ hsorted m hm a ha)
  have hlen' : ((sortDesc xs).take k).length = k := by
    have := (sortDesc_perm xs).length_eq
    simp [List.length_take, this]
    omega
  omega

/-- `getD` commutes with `map` when the default is mapped too. -/
theorem getD_map {α β : Type} (f : α → β) (l : List α) (d : α) :
    ∀ i, (l.map f).getD i (f d) = f (l.getD i d) := by
  induction l with
  | nil => intro i; rfl
  | cons x xs ih =>
    intro i
    cases i with
    | zero => rfl
    | succ i =>
      simp only [List.map_cons, List.getD_cons_succ]
      exact ih i

/-- Softmax over a `WithBot` row is the pointwise map
`y ↦ expW E y / sum`. -/
theorem softmaxW_eq_map (E : ℚ → ℚ) (ys : List (WithBot ℚ)) :
    softmaxW E ys
      = ys.map (fun y => expW E y / (ys.map (expW E)).sum) := by
  simp [softmaxW, List.map_map, Function.comp_def]

/-- A `-inf` entry receives exactly zero probability after softmax. -/
theorem softmaxW_bot_zero (E : ℚ → ℚ) (ys : List (WithBot ℚ)) (i : Nat)
    (hbot : ys.getD i ⊥ = ⊥) : (softmaxW E ys).getD i 0 = 0 := by
  rw [softmaxW_eq_map]
  have h0 : (0 : ℚ)
      = (fun y => expW E y / (ys.map (expW E)).sum) (⊥ : WithBot ℚ) := by
    simp [expW]
  rw [h0, getD_map, hbot]

/-- C2 counterexample: the claim says the filter "keeps only the k highest
scoring logits", but `torch.where(logits < min_val, -inf, logits)` keeps
every score tied with the k-th largest: for last-position logits `[1, 1]`
and `top_k = 1`, two positions retain finite logits, not one. -/
theorem claim_C2_topk_counterexample :
    (filteredLogits tieModel [0] 9 (some 1)).countP (fun e => decide (e ≠ ⊥)) = 2
    ∧ ¬ (filteredLogits tieModel [0] 9 (some 1)).countP
        (fun e => decide (e ≠ ⊥)) = 1 := by
  have h : (filteredLogits tieModel [0] 9 (some 1)).countP
      (fun e => decide (e ≠ ⊥)) = 2 := by
    norm_num [filteredLogits, lastLogits, sliceLast, lastRow, tieModel,
      topkFilter, topkMinVal, sortDesc, sortDescIns, List.countP_cons]
  exact ⟨h, by omega⟩

/-- C2 (amended): with a top-k filter configured, `generate` keeps exactly
the logits not strictly below the k-th largest — at least `k` positions, and
exactly the `k` highest when the boundary value is untied — and sets all
others to `-inf`, which receive probability zero after softmax
normalization; for the 9-token vocabulary with logits
`[4.51, 0.89, -1.90, 6.75, 1.63, -1.62, -1.89, 6.28, 1.79]` and `top_k = 3`,
exactly positions `{3, 7, 0}` retain finite logits. -/
theorem claim_C2_topk_amended (E : ℚ → ℚ) (xs : List ℚ) (k : Nat)
    (hk : 1 ≤ k) (hlen : k ≤ xs.length) :
    (∃ m, topkMinVal xs k = some m
      ∧ topkFilter xs k
        = xs.map (fun x => if x < m then (⊥ : WithBot ℚ) else (x : WithBot ℚ))
      ∧ k ≤ (topkFilter xs k).countP (fun e => decide (e ≠ ⊥))
      ∧ ∀ i, (topkFilter xs k).getD i ⊥ = ⊥ →
          (softmaxW E (topkFilter xs k)).getD i 0 = 0)
    ∧ topkFilter cLogits 3
      = [((4.51 : ℚ) : WithBot ℚ), ⊥, ⊥, ((6.75 : ℚ) : WithBot ℚ), ⊥, ⊥, ⊥,
         ((6.28 : ℚ) : WithBot ℚ), ⊥] := by
  obtain ⟨m, hm⟩ := topkMinVal_some xs k hk hlen
  refine ⟨⟨m, hm, by simp [topkFilter, hm], topkFilter_count xs k m hm hlen,
    fun i hi => softmaxW_bot_zero E _ i hi⟩, ?_⟩
  norm_num [topkFilter, topkMinVal, sortDesc, sortDescIns, cLogits]

/-- C2 witness: the amended statement at the demo logits with `top_k = 3`. -/
theorem claim_C2_topk_amended_witness :
    1 ≤ 3 ∧ 3 ≤ cLogits.length
    ∧ topkFilter cLogits 3
      = [((4.51 : ℚ) : WithBot ℚ), ⊥, ⊥, ((6.75 : ℚ) : WithBot ℚ), ⊥, ⊥, ⊥,
         ((6.28 : ℚ) : WithBot ℚ), ⊥] :=
  ⟨by decide, by decide,
    (claim_C2_topk_amended expLike cLogits 3 (by decide) (by decide)).2⟩

/-! ## Batched early stop -/

/-- `bool()` of a comparison tensor with at least two elements raises. -/
theorem tensorEqEos_error (next : List Nat) (e : Nat) (h : 2 ≤ next.length) :
    tensorEqEos next (some e)
      = .error "Boolean value of Tensor with more than one element is ambiguous" := by
  match next with
  | [] => simp at h
  | [n] => simp at h
  | a :: b :: t => rfl

/-- Without top-k filtering, the batched selection step always succeeds and
yields one id per batch row. -/
theorem selectNextB_none (E : ℚ → ℚ) (bmodel : BModel)
    (hB : ∀ input, (bmodel input).length = input.length)
    (rows : List (List Nat)) (ctx : Nat) (temp : ℚ) (us : Nat → ℚ) :
    ∃ next, selectNextB E bmodel rows ctx temp none us = .ok next
      ∧ next.length = rows.length := by
  refine ⟨_, rfl, ?_⟩
  simp [hB]

/-- With `eos_id = None` the loop body never stops early and appends one
token per row per step. -/
theorem generateGoB_none (E : ℚ → ℚ) (bmodel : BModel)
    (hB : ∀ input, (bmodel input).length = input.length)
    (ctx : Nat) (temp : ℚ) (rand : Nat → Nat → ℚ) :
    ∀ (n : Nat) (rows : List (List Nat)) (s : Nat),
      ∃ rows', generateGoB E bmodel ctx temp none none rand n rows s = .ok rows'
        ∧ rows'.length = rows.length
        ∧ ∀ i, i < rows.length →
            (rows'.getD i []).length = (rows.getD i []).length + n := by
  intro n
  induction n with
  | zero => intro rows s; exact ⟨rows, rfl, rfl, fun i _ => rfl⟩
  | succ n ih =>
    intro rows s
    obtain ⟨next, hsel, hlen⟩ := selectNextB_none E bmodel hB rows ctx temp (rand s)
    obtain ⟨rows', hgo, hlen', hgrow⟩ :=
      ih (List.zipWith (fun r t => r ++ [t]) rows next) (s + 1)
    refine ⟨rows', ?_, ?_, ?_⟩
    · simp only [generateGoB, hsel, tensorEqEos]
      exact hgo
    · rw [hlen']
      simp [List.length_zipWith, hlen]
    · intro i hi
      have hzl : (List.zipWith (fun r t => r ++ [t]) rows next).length
          = rows.length := by simp [List.length_zipWith, hlen]
      have hzi : (List.zipWith (fun r t => r ++ [t]) rows next).getD i []
          = rows.getD i [] ++ [next.getD i 0] := by
        have hi2 : i < (List.zipWith (fun r t => r ++ [t]) rows next).length := by
          omega
        rw [List.getD_eq_getElem _ _ hi2, List.getElem_zipWith,
          List.getD_eq_getElem _ _ hi, List.getD_eq_getElem _ _ (by omega)]
      have := hgrow i (by omega)
      rw [hzi] at this
      simp only [List.length_append, List.length_cons, List.length_nil] at this
      omega

/-- C10: the early-stop test of `generate` compares the whole selected-id
tensor against `eos_id`, so it is only well-defined for batch size 1: with an
`eos_id` set and at least two batch rows the loop body raises
(`bool()` of a multi-element boolean tensor) instead of stopping per row,
while with `eos_id = None` the comparison is always false and generation
always runs all `max_new_tokens` steps, appending one token per row per
step. -/
theorem claim_C10_eos_batch (E : ℚ → ℚ) (bmodel : BModel) (ctx : Nat)
    (temp : ℚ) (rand : Nat → Nat → ℚ)
    (hB : ∀ input, (bmodel input).length = input.length) :
    (∀ (rows : List (List Nat)) (e maxNewTokens : Nat),
        2 ≤ rows.length → 1 ≤ maxNewTokens →
        generateB E bmodel rows maxNewTokens ctx temp none (some e) rand
          = .error "Boolean value of Tensor with more than one element is ambiguous")
    ∧ (∀ (rows : List (List Nat)) (maxNewTokens : Nat),
        ∃ rows', generateB E bmodel rows maxNewTokens ctx temp none none rand
            = .ok rows'
          ∧ rows'.length = rows.length
          ∧ ∀ i, i < rows.length →
              (rows'.getD i []).length
                = (rows.getD i []).length + maxNewTokens) := by
  constructor
  · intro rows e maxNewTokens hrows hmax
    obtain ⟨n, rfl⟩ : ∃ n, maxNewTokens = n + 1 := ⟨maxNewTokens - 1, by omega⟩
    obtain ⟨next, hsel, hlen⟩ := selectNextB_none E bmodel hB rows ctx temp (rand 0)
    simp only [generateB, generateGoB, hsel]
    rw [tensorEqEos_error next e (by omega)]
  · intro rows maxNewTokens
    exact generateGoB_none E bmodel hB ctx temp rand maxNewTokens rows 0

/-- C10 witness: a two-row batch with an `eos_id` raises at the first step;
the same call with `eos_id = None` succeeds. -/
theorem claim_C10_eos_batch_witness :
    (∀ input, (cBModel input).length = input.length)
    ∧ generateB expLike cBModel [[0], [1]] 1 9 0 none (some 3) (fun _ _ => 0)
      = .error "Boolean value of Tensor with more than one element is ambiguous" := by
  have hB : ∀ input, (cBModel input).length = input.length := by
    intro input; simp [cBModel]
  exact ⟨hB, (claim_C10_eos_batch expLike cBModel 9 0 (fun _ _ => 0) hB).1
    [[0], [1]] 3 1 (by decide) (by decide)⟩

/-! ## Checkpoint loading -/

/-- C6 counterexample: the claim says a failed `load_weights_into_gpt` leaves
no model parameter mutated, but the assignments made before the failing one
stick: with a matching `wpe` and a mismatching `wte`, the load raises and the
position embedding has already been overwritten. -/
theorem claim_C6_load_counterexample :
    (load_weights_into_gpt gpt0 ckpt0).2.isSome = true
    ∧ (load_weights_into_gpt gpt0 ckpt0).1.posEmb ≠ gpt0.posEmb := by
  constructor
  · norm_num [load_weights_into_gpt, loadBlocks, assign, gpt0, ckpt0]
  · norm_num [load_weights_into_gpt, loadBlocks, assign, gpt0, ckpt0,
      Tensor.mk.injEq]

/-- C6 (amended): `assign` fails fast on any shape mismatch with an error
naming both the expected and the received shape, and on matching shapes
returns the checkpoint tensor verbatim (never reshaping or truncating); the
load stops at the first failing parameter, but the parameters assigned
before the failure keep their new values, so a failed load can leave the
model partially loaded. -/
theorem claim_C6_assign_shape (l r : Tensor) (gpt : GPTTensors) (params : Ckpt)
    (hwpe : gpt.posEmb.shape = params.wpe.shape)
    (hwte : gpt.tokEmb.shape ≠ params.wte.shape) :
    (l.shape ≠ r.shape →
      assign l r = .error ("Shape mismatch. Left: " ++ toString l.shape
        ++ ", Right: " ++ toString r.shape))
    ∧ (l.shape = r.shape → assign l r = .ok r)
    ∧ load_weights_into_gpt gpt params
      = ({ gpt with posEmb := params.wpe },
         some ("Shape mismatch. Left: " ++ toString gpt.tokEmb.shape
          ++ ", Right: " ++ toString params.wte.shape)) := by
  refine ⟨fun h => by simp [assign, h], fun h => by simp [assign, h], ?_⟩
  simp [load_weights_into_gpt, assign, hwpe, hwte]

/-- C6 witness: the amended statement at the concrete fixtures. -/
theorem claim_C6_assign_shape_witness :
    gpt0.posEmb.shape = ckpt0.wpe.shape
    ∧ gpt0.tokEmb.shape ≠ ckpt0.wte.shape
    ∧ load_weights_into_gpt gpt0 ckpt0
      = ({ gpt0 with posEmb := ckpt0.wpe },
         some ("Shape mismatch. Left: " ++ toString gpt0.tokEmb.shape
          ++ ", Right: " ++ toString ckpt0.wte.shape)) :=
  ⟨by decide, by decide,
    (claim_C6_assign_shape ⟨[1], [0]⟩ ⟨[1], [0]⟩ gpt0 ckpt0
      (by decide) (by decide)).2.2⟩

/-! ## Causality of the forward pass -/

/-- Reading inside the taken prefix sees the original list. -/
theorem getD_take_eq {α : Type} (l : List α) (d : α) :
    ∀ (n i : Nat), i < n → (l.take n).getD i d = l.getD i d := by
  induction l with
  | nil => intro n i _; simp
  | cons x xs ih =>
    intro n i hin
    cases n with
    | zero => omega
    | succ n =>
      cases i with
      | zero => rfl
      | succ i =>
        simp only [List.take_succ_cons, List.getD_cons_succ]
        exact ih n i (by omega)

/-- Lists with equal `n`-prefixes agree at every index below `n`. -/
theorem getD_eq_of_take_eq {α : Type} (as bs : List α) (d : α) (n i : Nat)
    (h : as.take n = bs.take n) (hi : i < n) :
    as.getD i d = bs.getD i d := by
  rw [← getD_take_eq as d n i hi, h, getD_take_eq bs d n i hi]

/-- Mapping preserves prefix agreement. -/
theorem take_map_eq {α β : Type} (f : α → β) (as bs : List α) (n : Nat)
    (h : as.take n = bs.take n) :
    (as.map f).take n = (bs.map f).take n := by
  rw [← List.map_take, ← List.map_take, h]

/-- Prefix agreement is monotone in the prefix length. -/
theorem take_eq_of_le {α : Type} (as bs : List α) (m n : Nat) (hmn : m ≤ n)
    (h : as.take n = bs.take n) : as.take m = bs.take m := by
  have h1 : as.take m = (as.take n).take m := by
    rw [List.take_take]
    congr 1
    omega
  have h2 : bs.take m = (bs.take n).take m := by
    rw [List.take_take]
    congr 1
    omega
  rw [h1, h, ← h2]

/-- A vector scaled by weight zero is a zero vector of the same length. -/
theorem map_zero_mul (l : List ℚ) :
    l.map (fun a => (0 : ℚ) * a) = List.replicate l.length 0 := by
  induction l with
  | nil => rfl
  | cons x xs ih => simp [ih, List.replicate_succ]

/-- Indexing a tabulated list. -/
theorem getD_range_map {α : Type} (f : Nat → α) (n j : Nat) (d : α) :
    ((List.range n).map f).getD j d = if j < n then f j else d := by
  by_cases hj : j < n
  · rw [if_pos hj, List.getD_eq_getElem _ _ (by simpa using hj)]
    simp
  · rw [if_neg hj, List.getD_eq_default]
    simpa using hj

/-- The attention-weighted value sum at query position `i` does not depend
on the value vectors after position `i` when their weights vanish. -/
theorem weightedSum_causal (ws : List ℚ) (vs vs' : List (List ℚ)) (i : Nat)
    (hlen : vs.length = vs'.length)
    (hrow : ∀ j, (vs.getD j []).length = (vs'.getD j []).length)
    (htake : vs.take (i + 1) = vs'.take (i + 1))
    (hw : ∀ j, i < j → ws.getD j 0 = 0) :
    weightedSum ws vs = weightedSum ws vs' := by
  unfold weightedSum
  congr 1
  apply List.ext_getElem
  · simp [List.length_zipWith, hlen]
  · intro j h1 h2
    rw [List.getElem_zipWith, List.getElem_zipWith]
    have hjw : j < ws.length := by
      simp only [List.length_zipWith] at h1; omega
    have hjv : j < vs.length := by
      simp only [List.length_zipWith] at h1; omega
    have hjv' : j < vs'.length := by omega
    by_cases hji : j ≤ i
    · have hv : vs[j] = vs'[j] := by
        have := getD_eq_of_take_eq vs vs' [] (i + 1) j htake (by omega)
        rwa [List.getD_eq_getElem _ _ hjv, List.getD_eq_getElem _ _ hjv'] at this
      rw [hv]
    · push_neg at hji
      have hwj : ws[j] = 0 := by
        have := hw j hji
        rwa [List.getD_eq_getElem _ _ hjw] at this
      show vs[j].map (fun a => ws[j] * a) = vs'[j].map (fun a => ws[j] * a)
      rw [hwj, map_zero_mul, map_zero_mul]
      congr 1
      have := hrow j
      rwa [List.getD_eq_getElem _ _ hjv, List.getD_eq_getElem _ _ hjv'] at this

/-- The masked scores at query position `i` only read keys up to position
`i`. -/
theorem maskedScores_eq (w : AttnWeights) (q : List ℚ) (ks ks' : List (List ℚ))
    (i h : Nat) (hlen : ks.length = ks'.length)
    (htake : ks.take (i + 1) = ks'.take (i + 1)) :
    maskedScores w q ks i h = maskedScores w q ks' i h := by
  unfold maskedScores
  simp only [List.length_map]
  rw [hlen]
  apply List.map_congr_left
  intro j _
  by_cases hji : j ≤ i
  · rw [if_pos hji, if_pos hji]
    have hkh : (ks.map (chunkAt w.headDim h)).getD j []
        = (ks'.map (chunkAt w.headDim h)).getD j [] :=
      getD_eq_of_take_eq _ _ [] (i + 1) j
        (take_map_eq (chunkAt w.headDim h) ks ks' (i + 1) htake) (by omega)
    rw [hkh]
  · rw [if_neg hji, if_neg hji]

/-- Every score strictly after the query position is masked to `-inf`. -/
theorem maskedScores_bot (w : AttnWeights) (q : List ℚ) (ks : List (List ℚ))
    (i h j : Nat) (hj : i < j) :
    (maskedScores w q ks i h).getD j ⊥ = ⊥ := by
  unfold maskedScores
  rw [getD_range_map]
  split
  · rw [if_neg (by omega : ¬ j ≤ i)]
  · rfl

/-- The per-head value slices have input-independent row lengths. -/
theorem valsChunk_row_len (w : AttnWeights) (h : Nat) (xs xs' : List (List ℚ))
    (hlen : xs.length = xs'.length) (j : Nat) :
    (((valsOf w xs).map (chunkAt w.headDim h)).getD j []).length
      = (((valsOf w xs').map (chunkAt w.headDim h)).getD j []).length := by
  by_cases hj : j < xs.length
  · rw [List.getD_eq_getElem _ _ (by simp [valsOf]; omega),
      List.getD_eq_getElem _ _ (by simp [valsOf]; omega)]
    simp [valsOf, chunkAt, addVec, matVec]
  · rw [List.getD_eq_default _ _ (by simp [valsOf]; omega),
      List.getD_eq_default _ _ (by simp [valsOf]; omega)]

/-- One head's output at query position `i` only reads keys and values up to
position `i`: masked positions contribute score `-inf`, hence softmax weight
zero. -/
theorem headOut_causal (E : ℚ → ℚ) (w : AttnWeights) (q : List ℚ)
    (ks ks' vs vs' : List (List ℚ)) (i h : Nat)
    (hk : ks.length = ks'.length) (htk : ks.take (i + 1) = ks'.take (i + 1))
    (hv : vs.length = vs'.length) (htv : vs.take (i + 1) = vs'.take (i + 1))
    (hrow : ∀ j, ((vs.map (chunkAt w.headDim h)).getD j []).length
      = ((vs'.map (chunkAt w.headDim h)).getD j []).length) :
    headOut E w q ks vs i h = headOut E w q ks' vs' i h := by
  unfold headOut
  rw [maskedScores_eq w q ks ks' i h hk htk]
  apply weightedSum_causal
  · simp [hv]
  · exact hrow
  · exact take_map_eq _ _ _ _ htv
  · intro j hj
    exact softmaxW_bot_zero E _ j (maskedScores_bot w q ks' i h j hj)

/-- The attention output at position `i` is unchanged when only positions
strictly after `i` of the input change. -/
theorem attnRow_causal (E : ℚ → ℚ) (w : AttnWeights) (xs xs' : List (List ℚ))
    (i : Nat) (xi : List ℚ) (hlen : xs.length = xs'.length)
    (htake : xs.take (i + 1) = xs'.take (i + 1)) :
    attnRow E w xs i xi = attnRow E w xs' i xi := by
  unfold attnRow
  have hmap : (List.range w.numHeads).map
        (headOut E w (queryOf w xi) (keysOf w xs) (valsOf w xs) i)
      = (List.range w.numHeads).map
        (headOut E w (queryOf w xi) (keysOf w xs') (valsOf w xs') i) := by
    apply List.map_congr_left
    intro h _
    exact headOut_causal E w (queryOf w xi) _ _ _ _ i h
      (by simp [keysOf, hlen])
      (take_map_eq _ xs xs' (i + 1) htake)
      (by simp [valsOf, hlen])
      (take_map_eq _ xs xs' (i + 1) htake)
      (valsChunk_row_len w h xs xs' hlen)
  rw [hmap]

/-- `attention` preserves sequence length. -/
theorem attention_length (E : ℚ → ℚ) (w : AttnWeights) (xs : List (List ℚ)) :
    (attention E w xs).length = xs.length := by
  simp [attention]

/-- Causality of `attention`: the outputs up to position `i` agree whenever
the inputs up to position `i` agree (and the lengths match). -/
theorem attention_take (E : ℚ → ℚ) (w : AttnWeights) (xs xs' : List (List ℚ))
    (i : Nat) (hlen : xs.length = xs'.length)
    (htake : xs.take (i + 1) = xs'.take (i + 1)) :
    (attention E w xs).take (i + 1) = (attention E w xs').take (i + 1) := by
  unfold attention
  rw [← List.map_take, ← List.map_take, List.take_range, List.take_range, hlen]
  apply List.map_congr_left
  intro p hp
  have hpi : p ≤ i := by
    have := List.mem_range.mp hp
    omega
  have hgd : xs.getD p [] = xs'.getD p [] :=
    getD_eq_of_take_eq _ _ [] (i + 1) p htake (by omega)
  rw [hgd]
  exact attnRow_causal E w xs xs' p (xs'.getD p []) hlen
    (take_eq_of_le _ _ _ _ (by omega) htake)

/-- The attention residual sublayer preserves sequence length. -/
theorem resAtt_length (E S : ℚ → ℚ) (eps : ℚ) (b : BlockWeights)
    (xs : List (List ℚ)) : (resAtt E S eps b xs).length = xs.length := by
  simp [resAtt, List.length_zipWith, attention_length]

/-- Causality of the attention residual sublayer. -/
theorem resAtt_take (E S : ℚ → ℚ) (eps : ℚ) (b : BlockWeights)
    (xs xs' : List (List ℚ)) (i : Nat) (hlen : xs.length = xs'.length)
    (htake : xs.take (i + 1) = xs'.take (i + 1)) :
    (resAtt E S eps b xs).take (i + 1) = (resAtt E S eps b xs').take (i + 1) := by
  unfold resAtt
  rw [List.take_zipWith, List.take_zipWith, htake,
    attention_take E b.att _ _ i (by simp [hlen]) (take_map_eq _ _ _ _ htake)]

/-- The feed-forward residual sublayer preserves sequence length. -/
theorem resFF_length (S phi : ℚ → ℚ) (eps : ℚ) (b : BlockWeights)
    (ys : List (List ℚ)) : (resFF S phi eps b ys).length = ys.length := by
  simp [resFF, List.length_zipWith]

/-- The feed-forward residual sublayer acts position-wise, so prefixes are
preserved. -/
theorem resFF_take (S phi : ℚ → ℚ) (eps : ℚ) (b : BlockWeights)
    (ys ys' : List (List ℚ)) (i : Nat)
    (htake : ys.take (i + 1) = ys'.take (i + 1)) :
    (resFF S phi eps b ys).take (i + 1) = (resFF S phi eps b ys').take (i + 1) := by
  unfold resFF
  rw [List.take_zipWith, List.take_zipWith, htake,
    take_map_eq _ _ _ _ (take_map_eq _ _ _ _ htake)]

/-- A transformer block preserves sequence length. -/
theorem blockF_length (E S phi : ℚ → ℚ) (eps : ℚ) (b : BlockWeights)
    (xs : List (List ℚ)) : (blockF E S phi eps b xs).length = xs.length := by
  rw [blockF, resFF_length, resAtt_length]

/-- Causality of one transformer block. -/
theorem blockF_causal (E S phi : ℚ → ℚ) (eps : ℚ) (b : BlockWeights)
    (xs xs' : List (List ℚ)) (i : Nat) (hlen : xs.length = xs'.length)
    (htake : xs.take (i + 1) = xs'.take (i + 1)) :
    (blockF E S phi eps b xs).take (i + 1)
      = (blockF E S phi eps b xs').take (i + 1) := by
  rw [blockF, blockF]
  exact resFF_take S phi eps b _ _ i (resAtt_take E S eps b xs xs' i hlen htake)

/-- Causality through the whole block stack. -/
theorem foldl_blockF_causal (E S phi : ℚ → ℚ) (eps : ℚ) :
    ∀ (bs : List BlockWeights) (xs xs' : List (List ℚ)) (i : Nat),
      xs.length = xs'.length → xs.take (i + 1) = xs'.take (i + 1) →
      (bs.foldl (fun acc b => blockF E S phi eps b acc) xs).length
        = (bs.foldl (fun acc b => blockF E S phi eps b acc) xs').length
      ∧ (bs.foldl (fun acc b => blockF E S phi eps b acc) xs).take (i + 1)
        = (bs.foldl (fun acc b => blockF E S phi eps b acc) xs').take (i + 1) := by
  intro bs
  induction bs with
  | nil => exact fun xs xs' i h1 h2 => ⟨h1, h2⟩
  | cons b bs ih =>
    intro xs xs' i h1 h2
    simp only [List.foldl_cons]
    exact ih _ _ i (by rw [blockF_length, blockF_length, h1])
      (blockF_causal E S phi eps b xs xs' i h1 h2)

/-- The embedding stage preserves sequence length. -/
theorem embed_length (w : GPTWeights) (ids : List Nat) :
    (embed w ids).length = ids.length := by
  simp [embed]

/-- The embedding stage is position-wise: prefixes of ids give prefixes of
embeddings. -/
theorem embed_take (w : GPTWeights) (ids ids' : List Nat) (i : Nat)
    (hlen : ids.length = ids'.length)
    (htake : ids.take (i + 1) = ids'.take (i + 1)) :
    (embed w ids).take (i + 1) = (embed w ids').take (i + 1) := by
  unfold embed
  rw [← List.map_take, ← List.map_take, List.take_range, List.take_range, hlen]
  apply List.map_congr_left
  intro p hp
  have hgd : ids.getD p 0 = ids'.getD p 0 :=
    getD_eq_of_take_eq _ _ 0 (i + 1) p htake
      (by have := List.mem_range.mp hp; omega)
  rw [hgd]

/-- C4: causality of the forward pass — for any position `i`, changing token
values strictly after position `i` (keeping the sequence length) does not
change the output logits at position `i`: the causal mask prevents any
position from attending to later positions. -/
theorem claim_C4_causality (E S phi : ℚ → ℚ) (eps : ℚ) (w : GPTWeights)
    (ids ids' : List Nat) (i : Nat) (hlen : ids.length = ids'.length)
    (htake : ids.take (i + 1) = ids'.take (i + 1)) :
    (forward E S phi eps w ids).getD i []
      = (forward E S phi eps w ids').getD i [] := by
  unfold forward
  obtain ⟨hfl, hft⟩ := foldl_blockF_causal E S phi eps w.blocks
    (embed w ids) (embed w ids') i
    (by rw [embed_length, embed_length, hlen])
    (embed_take w ids ids' i hlen htake)
  exact getD_eq_of_take_eq _ _ [] (i + 1) i
    (take_map_eq _ _ _ _ (take_map_eq _ _ _ _ hft)) (by omega)

/-- C4 witness: two prompts agreeing on position 0 and differing after it
produce the same position-0 logits. -/
theorem claim_C4_causality_witness :
    [0, 1].take 1 = [0, 2].take 1
    ∧ (forward expLike (fun q => q) (fun q => q) 0 cWeights [0, 1]).getD 0 []
      = (forward expLike (fun q => q) (fun q => q) 0 cWeights [0, 2]).getD 0 [] :=
  ⟨rfl, claim_C4_causality expLike (fun q => q) (fun q => q) 0 cWeights
    [0, 1] [0, 2] 0 rfl rfl⟩

end LLM
